import Mathlib

/-!
Verification of the spec-file parser in `saulify/sitespec.py`.

The module tokenizes a line-oriented directive language and folds the
directive stream into a rules mapping (`load_rules`) and an ordered list of
test cases (`load_testcases`).  The embedding below mirrors the python
source: lines are lists of characters, directives are pairs of stripped
strings, dictionaries are association lists with python insertion-order
update semantics, and the single `raise Exception("Invalid spec file")`
becomes `Except.error SpecError.invalidSpec` (an `.append` on a
non-list value, impossible to reach from the public entry points, is
modelled as `SpecError.attributeError`).
-/

namespace Saulify

/-- Character class of the label group in the directive regex
`(?P<label>[^#:]+):(?P<content>[^#]+)`: anything but `#` and `:`. -/
def labelChar (c : Char) : Bool := !(c == '#') && !(c == ':')

/-- Character class of the content group: anything but `#`. -/
def contentChar (c : Char) : Bool := !(c == '#')

/-- Python `str.strip()`: drop whitespace from both ends. -/
def strip (l : List Char) : String :=
  String.mk (((l.dropWhile Char.isWhitespace).reverse.dropWhile Char.isWhitespace).reverse)

/-- One line matched against the anchored regex
`(?P<label>[^#:]+):(?P<content>[^#]+)`; on a match the two groups are
whitespace-stripped and yielded.  The greedy label group extends to the
first `#` or `:`; the match succeeds exactly when that run is nonempty,
is followed by `:`, and at least one non-`#` character follows the `:`. -/
def matchDirective (t : List Char) : Option (String × String) :=
  let rawLabel := t.takeWhile labelChar
  match t.dropWhile labelChar with
  | ':' :: rest =>
    let rawContent := rest.takeWhile contentChar
    if rawLabel.isEmpty || rawContent.isEmpty then none
    else some (strip rawLabel, strip rawContent)
  | _ => none

/-- Split a character list at every newline; always returns at least one
(possibly empty) segment. -/
def splitNl : List Char → List (List Char)
  | [] => [[]]
  | c :: rest =>
    if c = '\n' then [] :: splitNl rest
    else
      match splitNl rest with
      | [] => [[c]]
      | line :: more => (c :: line) :: more

/-- Python `str.splitlines()` for text whose only line-break character is
the newline: split on every newline and drop one trailing empty segment. -/
def pySplitlines (l : List Char) : List (List Char) :=
  let parts := splitNl l
  if parts.getLast? = some [] then parts.dropLast else parts

/-- `parse_specfile`: tokenize the file into the ordered stream of
(label, content) directive pairs, one per matching line; non-matching
lines are skipped silently. -/
def parse_specfile (f : List Char) : List (String × String) :=
  (pySplitlines f).filterMap matchDirective

/-- One element of a rules list value: `load_rules` appends plain strings
in the default branch and 2-tuples in the `replace_string` branch. -/
inductive Entry
  | str : String → Entry
  | pair : String → String → Entry
deriving DecidableEq

/-- A value in the rules dictionary: a list, or a boolean flag. -/
inductive RuleValue
  | list : List Entry → RuleValue
  | bool : Bool → RuleValue
deriving DecidableEq

/-- The rules dictionary, as an insertion-ordered association list. -/
abbrev Rules := List (String × RuleValue)

/-- The parse errors: `InvalidSpec` is the python
`Exception("Invalid spec file")`; `attributeError` models calling
`.append` on a non-list dictionary value. -/
inductive SpecError
  | invalidSpec
  | attributeError
deriving DecidableEq

/-- Python dict assignment `m[k] = v`: overwrite in place when the key is
present, insert at the end when it is new. -/
def setKey {α : Type} : List (String × α) → String → α → List (String × α)
  | [], k, v => [(k, v)]
  | (k', v') :: m, k, v =>
    if k' = k then (k, v) :: m else (k', v') :: setKey m k v

/-- Python dict lookup `m[k]` (first, and only, binding of the key). -/
def lookupKey {α : Type} : List (String × α) → String → Option α
  | [], _ => none
  | (k', v) :: m, k => if k' = k then some v else lookupKey m k

/-- `defaultdict(list)` append, `rules[k].append(e)`: create the list on
first access; appending to a boolean raises `AttributeError`. -/
def appendEntry (m : Rules) (k : String) (e : Entry) : Except SpecError Rules :=
  match lookupKey m k with
  | some (RuleValue.list es) => Except.ok (setKey m k (RuleValue.list (es ++ [e])))
  | some (RuleValue.bool _) => Except.error SpecError.attributeError
  | none => Except.ok (setKey m k (RuleValue.list [e]))

/-- `label.startswith("test_")`. -/
def isTestLabel (l : String) : Bool := List.isPrefixOf ("test_").data l.data

/-- The fixed set of boolean properties in `load_rules`. -/
def boolean_props : List String := [("prune")]

/-- The directive-stream fold of `load_rules`: the second argument is the
accumulated rules dictionary, the third the pending `find_string` slot
(`None` initially; the python truthiness test `if not find_string` treats
`None` and the empty string alike). -/
def loadRulesGo : List (String × String) → Rules → Option String → Except SpecError Rules
  | [], rules, _ => Except.ok rules
  | (label, content) :: ds, rules, fs =>
    if isTestLabel label then
      loadRulesGo ds rules fs
    else if label = "find_string" then
      loadRulesGo ds rules (some content)
    else if label = "replace_string" then
      match fs with
      | none => Except.error SpecError.invalidSpec
      | some s =>
        if s = "" then Except.error SpecError.invalidSpec
        else
          match appendEntry rules ("find_replace") (Entry.pair s content) with
          | Except.ok r => loadRulesGo ds r fs
          | Except.error e => Except.error e
    else if label ∈ boolean_props then
      if content = "yes" then
        loadRulesGo ds (setKey rules label (RuleValue.bool true)) fs
      else if content = "no" then
        loadRulesGo ds (setKey rules label (RuleValue.bool false)) fs
      else Except.error SpecError.invalidSpec
    else
      match appendEntry rules label (Entry.str content) with
      | Except.ok r => loadRulesGo ds r fs
      | Except.error e => Except.error e

/-- `load_rules`: fold the directive stream of the file into the rules
dictionary, starting from the empty dictionary and an empty pending slot. -/
def load_rules (f : List Char) : Except SpecError Rules :=
  loadRulesGo (parse_specfile f) [] none

/-- A value in one test-case dictionary: the section-start key holds a
single string, every other test key holds a list. -/
inductive TCVal
  | str : String → TCVal
  | list : List String → TCVal
deriving DecidableEq

/-- One test case, as an insertion-ordered association list. -/
abbrev TestCase := List (String × TCVal)

/-- `defaultdict(list)` append inside a test case,
`opencase[label].append(content)`. -/
def tcAppend (c : TestCase) (label content : String) : Except SpecError TestCase :=
  match lookupKey c label with
  | some (TCVal.list xs) => Except.ok (setKey c label (TCVal.list (xs ++ [content])))
  | some (TCVal.str _) => Except.error SpecError.attributeError
  | none => Except.ok (setKey c label (TCVal.list [content]))

/-- The directive-stream fold of `load_testcases`: a `test_url` directive
opens a fresh record, any other `test_`-prefixed directive appends to the
most recently opened record (failing when there is none), and everything
else is ignored. -/
def loadTestcasesGo : List (String × String) → List TestCase → Except SpecError (List TestCase)
  | [], cases => Except.ok cases
  | (label, content) :: ds, cases =>
    if label = "test_url" then
      loadTestcasesGo ds (cases ++ [[(label, TCVal.str content)]])
    else if isTestLabel label then
      match cases.getLast? with
      | none => Except.error SpecError.invalidSpec
      | some opencase =>
        match tcAppend opencase label content with
        | Except.ok c => loadTestcasesGo ds (cases.dropLast ++ [c])
        | Except.error e => Except.error e
    else loadTestcasesGo ds cases

/-- `load_testcases`: fold the directive stream of the file into the
ordered list of test cases. -/
def load_testcases (f : List Char) : Except SpecError (List TestCase) :=
  loadTestcasesGo (parse_specfile f) []

/-- The value is a boolean flag. -/
def boolOnly (v : RuleValue) : Prop := ∃ b, v = RuleValue.bool b

/-- The value is a list made only of find/replace pairs. -/
def pairsOnly (v : RuleValue) : Prop :=
  ∃ ps : List (String × String), v = RuleValue.list (ps.map fun p => Entry.pair p.1 p.2)

/-- The value is a list made only of plain strings. -/
def strsOnly (v : RuleValue) : Prop :=
  ∃ ss : List String, v = RuleValue.list (ss.map Entry.str)

/-- Shape invariant actually maintained by `load_rules`: boolean
properties hold booleans, every other key holds a list, and every list
other than the one under `find_replace` holds only plain strings. -/
def RulesInv (m : Rules) : Prop :=
  ∀ k v, (k, v) ∈ m →
    (k ∈ boolean_props → boolOnly v) ∧
    (k ∉ boolean_props → ∃ es, v = RuleValue.list es) ∧
    (k ∉ boolean_props → k ≠ "find_replace" → strsOnly v)

/-- The value-shape claim as stated: the `find_replace` list holds only
pairs, boolean properties hold booleans, everything else holds only
plain strings. -/
def claimC1 : Prop :=
  ∀ f rules, load_rules f = Except.ok rules → ∀ k v, (k, v) ∈ rules →
    (k = "find_replace" → pairsOnly v) ∧
    (k ∈ boolean_props → boolOnly v) ∧
    (k ≠ "find_replace" → k ∉ boolean_props → strsOnly v)

/-- The tokenizer claim as stated: a yielded directive never has an empty
label or an empty content. -/
def claimC7 : Prop :=
  ∀ t l c, matchDirective t = some (l, c) → l ≠ "" ∧ c ≠ ""

/-! List facts about `takeWhile` and `dropWhile` used to read off the
structure of a matched line. -/

theorem takeWhile_all {α : Type} (q : α → Bool) :
    ∀ l : List α, (∀ x ∈ l, q x = true) → l.takeWhile q = l := by
  intro l
  induction l with
  | nil => intro _; rfl
  | cons a l ih =>
    intro h
    have ha : q a = true := h a (List.mem_cons_self a l)
    simp [List.takeWhile_cons, ha, ih fun x hx => h x (List.mem_cons_of_mem a hx)]

theorem takeWhile_append_cons {α : Type} (q : α → Bool) :
    ∀ pre : List α, ∀ a : α, ∀ post : List α,
      (∀ x ∈ pre, q x = true) → q a = false →
      (pre ++ a :: post).takeWhile q = pre := by
  intro pre
  induction pre with
  | nil => intro a post _ ha; simp [List.takeWhile_cons, ha]
  | cons b pre ih =>
    intro a post h ha
    have hb : q b = true := h b (List.mem_cons_self b pre)
    simp [List.takeWhile_cons, hb,
      ih a post (fun x hx => h x (List.mem_cons_of_mem b hx)) ha]

theorem takeWhile_append_cons_pos {α : Type} (q : α → Bool) :
    ∀ pre : List α, ∀ a : α, ∀ post : List α,
      (∀ x ∈ pre, q x = true) → q a = true →
      (pre ++ a :: post).takeWhile q = pre ++ a :: post.takeWhile q := by
  intro pre
  induction pre with
  | nil => intro a post _ ha; simp [List.takeWhile_cons, ha]
  | cons b pre ih =>
    intro a post h ha
    have hb : q b = true := h b (List.mem_cons_self b pre)
    simp [List.takeWhile_cons, hb,
      ih a post (fun x hx => h x (List.mem_cons_of_mem b hx)) ha]

theorem dropWhile_append_cons {α : Type} (q : α → Bool) :
    ∀ pre : List α, ∀ a : α, ∀ post : List α,
      (∀ x ∈ pre, q x = true) → q a = false →
      (pre ++ a :: post).dropWhile q = a :: post := by
  intro pre
  induction pre with
  | nil => intro a post _ ha; simp [List.dropWhile_cons, ha]
  | cons b pre ih =>
    intro a post h ha
    have hb : q b = true := h b (List.mem_cons_self b pre)
    simp [List.dropWhile_cons, hb,
      ih a post (fun x hx => h x (List.mem_cons_of_mem b hx)) ha]

theorem dropWhile_head_false {α : Type} (q : α → Bool) :
    ∀ l : List α, ∀ a : α, ∀ tail : List α,
      l.dropWhile q = a :: tail → q a = false := by
  intro l
  induction l with
  | nil => intro a tail h; simp [List.dropWhile] at h
  | cons b l ih =>
    intro a tail h
    by_cases hb : q b = true
    · rw [List.dropWhile_cons_of_pos hb] at h
      exact ih a tail h
    · rw [List.dropWhile_cons_of_neg hb] at h
      obtain ⟨rfl, -⟩ := List.cons.inj h
      exact Bool.eq_false_iff.mpr hb

/-- Structure of every line the tokenizer matches: a nonempty raw label
segment free of `#` and `:`, the first `:`, a nonempty raw content
segment free of `#`, and a remainder that is empty or starts the comment;
the yielded pair is the two segments whitespace-stripped. -/
theorem matchDirective_decomp :
    ∀ t l c, matchDirective t = some (l, c) →
      ∃ rawL rawC rest, t = rawL ++ ':' :: (rawC ++ rest)
        ∧ rawL ≠ [] ∧ rawC ≠ []
        ∧ (∀ ch ∈ rawL, ch ≠ '#' ∧ ch ≠ ':')
        ∧ (∀ ch ∈ rawC, ch ≠ '#')
        ∧ (rest = [] ∨ ∃ r, rest = '#' :: r)
        ∧ l = strip rawL ∧ c = strip rawC := by
  intro t l c h
  simp only [matchDirective] at h
  split at h
  next a rest2 heq =>
    by_cases hcond :
        ((t.takeWhile labelChar).isEmpty || (rest2.takeWhile contentChar).isEmpty) = true
    · rw [if_pos hcond] at h
      exact absurd h (by simp)
    · rw [if_neg hcond] at h
      obtain ⟨hl, hc⟩ := Prod.mk.injEq .. ▸ Option.some.inj h
      have hne : ¬(t.takeWhile labelChar).isEmpty = true
          ∧ ¬(rest2.takeWhile contentChar).isEmpty = true := by
        simpa using hcond
      refine ⟨t.takeWhile labelChar, rest2.takeWhile contentChar,
        rest2.dropWhile contentChar, ?_, ?_, ?_, ?_, ?_, ?_, hl.symm, hc.symm⟩
      · conv_lhs => rw [← List.takeWhile_append_dropWhile (p := labelChar) (l := t)]
        rw [heq, List.takeWhile_append_dropWhile]
      · simpa using hne.1
      · simpa using hne.2
      · intro ch hch
        have := List.mem_takeWhile_imp hch
        simpa [labelChar] using this
      · intro ch hch
        have := List.mem_takeWhile_imp hch
        simpa [contentChar] using this
      · cases hr : rest2.dropWhile contentChar with
        | nil => exact Or.inl rfl
        | cons a r =>
          have := dropWhile_head_false contentChar rest2 a r hr
          have ha : a = '#' := by simpa [contentChar] using this
          exact Or.inr ⟨r, by rw [ha]⟩
  next heq =>
    exact absurd h (by simp)

/-- Dictionary lookup only returns stored bindings. -/
theorem lookupKey_mem {α : Type} :
    ∀ m : List (String × α), ∀ k v, lookupKey m k = some v → (k, v) ∈ m := by
  intro m
  induction m with
  | nil => intro k v h; simp [lookupKey] at h
  | cons p m ih =>
    intro k v h
    obtain ⟨a, b⟩ := p
    by_cases hk : a = k
    · subst hk
      rw [lookupKey, if_pos rfl] at h
      obtain rfl := Option.some.inj h
      exact List.mem_cons_self _ _
    · rw [lookupKey, if_neg hk] at h
      exact List.mem_cons_of_mem _ (ih k v h)

/-- Every binding after a dictionary assignment is the new one or an old
one. -/
theorem mem_setKey {α : Type} :
    ∀ m : List (String × α), ∀ k v k' v',
      (k', v') ∈ setKey m k v → (k' = k ∧ v' = v) ∨ (k', v') ∈ m := by
  intro m
  induction m with
  | nil =>
    intro k v k' v' h
    simp [setKey] at h
    exact Or.inl h
  | cons p m ih =>
    intro k v k' v' h
    obtain ⟨a, b⟩ := p
    by_cases hk : a = k
    · subst hk
      rw [setKey, if_pos rfl] at h
      rcases List.mem_cons.mp h with heq | hmem
      · exact Or.inl (Prod.mk.injEq .. ▸ heq)
      · exact Or.inr (List.mem_cons_of_mem _ hmem)
    · rw [setKey, if_neg hk] at h
      rcases List.mem_cons.mp h with heq | hmem
      · exact Or.inr (heq ▸ List.mem_cons_self _ _)
      · rcases ih k v k' v' hmem with hnew | hold
        · exact Or.inl hnew
        · exact Or.inr (List.mem_cons_of_mem _ hold)

/-- The empty dictionary satisfies the shape invariant. -/
theorem rulesInv_nil : RulesInv [] := by
  intro k v h
  simp at h

/-- Assigning a boolean to a boolean property preserves the shape
invariant. -/
theorem rulesInv_setBool :
    ∀ m k b, RulesInv m → k ∈ boolean_props →
      RulesInv (setKey m k (RuleValue.bool b)) := by
  intro m k b hm hk k' v' hmem
  rcases mem_setKey m k (RuleValue.bool b) k' v' hmem with ⟨rfl, rfl⟩ | hold
  · exact ⟨fun _ => ⟨b, rfl⟩, fun hnk => absurd hk hnk, fun hnk _ => absurd hk hnk⟩
  · exact hm k' v' hold

/-- Appending to a non-boolean key succeeds and preserves the shape
invariant, provided pairs only go under `find_replace`. -/
theorem appendEntry_ok :
    ∀ m k e, RulesInv m → k ∉ boolean_props →
      (∀ a b, e = Entry.pair a b → k = "find_replace") →
      ∃ r, appendEntry m k e = Except.ok r ∧ RulesInv r := by
  intro m k e hm hk hp
  cases hl : lookupKey m k with
  | none =>
    refine ⟨setKey m k (RuleValue.list [e]), by simp [appendEntry, hl], ?_⟩
    intro k' v' hmem
    rcases mem_setKey m k (RuleValue.list [e]) k' v' hmem with ⟨rfl, rfl⟩ | hold
    · refine ⟨fun hkb => absurd hkb hk, fun _ => ⟨[e], rfl⟩, fun _ hne => ?_⟩
      cases e with
      | str s => exact ⟨[s], rfl⟩
      | pair a b => exact absurd (hp a b rfl) hne
    · exact hm k' v' hold
  | some v =>
    have hvmem := lookupKey_mem m k v hl
    have hshape := hm k v hvmem
    obtain ⟨es, rfl⟩ := hshape.2.1 hk
    refine ⟨setKey m k (RuleValue.list (es ++ [e])), by simp [appendEntry, hl], ?_⟩
    intro k' v' hmem
    rcases mem_setKey m k (RuleValue.list (es ++ [e])) k' v' hmem with ⟨rfl, rfl⟩ | hold
    · refine ⟨fun hkb => absurd hkb hk, fun _ => ⟨es ++ [e], rfl⟩, fun _ hne => ?_⟩
      obtain ⟨ss, hss⟩ := hshape.2.2 hk hne
      have hes : es = ss.map Entry.str := by
        injection hss
      cases e with
      | str s =>
        refine ⟨ss ++ [s], ?_⟩
        rw [hes]
        simp
      | pair a b => exact absurd (hp a b rfl) hne
    · exact hm k' v' hold

/-- One step of the `load_rules` fold from an invariant-respecting state
either fails with `InvalidSpec` or moves to another invariant-respecting
state, leaving the pending slot unchanged unless the directive is
`find_string`. -/
theorem loadRulesGo_cons_cases :
    ∀ l c ds rules fs, RulesInv rules →
      loadRulesGo ((l, c) :: ds) rules fs = Except.error SpecError.invalidSpec
      ∨ ∃ rules' fs', RulesInv rules'
          ∧ loadRulesGo ((l, c) :: ds) rules fs = loadRulesGo ds rules' fs'
          ∧ (l ≠ "find_string" → fs' = fs) := by
  intro l c ds rules fs hinv
  by_cases h1 : isTestLabel l = true
  · exact Or.inr ⟨rules, fs, hinv, by simp [loadRulesGo, h1], fun _ => rfl⟩
  · by_cases h2 : l = "find_string"
    · subst h2
      exact Or.inr ⟨rules, some c, hinv, by simp [loadRulesGo, h1],
        fun hne => absurd rfl hne⟩
    · by_cases h3 : l = "replace_string"
      · subst h3
        cases fs with
        | none => exact Or.inl (by simp [loadRulesGo, h1])
        | some s =>
          by_cases hs : s = ""
          · subst hs
            exact Or.inl (by simp [loadRulesGo, h1])
          · obtain ⟨r, hr, hrinv⟩ :=
              appendEntry_ok rules ("find_replace") (Entry.pair s c) hinv
                (by decide) (fun _ _ _ => rfl)
            exact Or.inr ⟨r, some s, hrinv,
              by simp [loadRulesGo, h1, hs, hr], fun _ => rfl⟩
      · by_cases h4 : l ∈ boolean_props
        · have hlp : l = "prune" := by simpa [boolean_props] using h4
          subst hlp
          by_cases hy : c = "yes"
          · subst hy
            exact Or.inr ⟨setKey rules ("prune") (RuleValue.bool true), fs,
              rulesInv_setBool rules ("prune") true hinv (by decide),
              by simp [loadRulesGo, h1, h4], fun _ => rfl⟩
          · by_cases hn : c = "no"
            · subst hn
              exact Or.inr ⟨setKey rules ("prune") (RuleValue.bool false), fs,
                rulesInv_setBool rules ("prune") false hinv (by decide),
                by simp [loadRulesGo, h1, h4], fun _ => rfl⟩
            · exact Or.inl (by simp [loadRulesGo, h1, h4, hy, hn])
        · obtain ⟨r, hr, hrinv⟩ :=
            appendEntry_ok rules l (Entry.str c) hinv h4 (fun _ _ h => by cases h)
          exact Or.inr ⟨r, fs, hrinv,
            by simp [loadRulesGo, h1, h2, h3, h4, hr], fun _ => rfl⟩

/-- The `load_rules` fold from an invariant-respecting state only returns
invariant-respecting dictionaries, and only fails with `InvalidSpec`. -/
theorem loadRulesGo_sound :
    ∀ ds rules fs, RulesInv rules →
      (∀ r, loadRulesGo ds rules fs = Except.ok r → RulesInv r) ∧
      (∀ e, loadRulesGo ds rules fs = Except.error e → e = SpecError.invalidSpec) := by
  intro ds
  induction ds with
  | nil =>
    intro rules fs hinv
    constructor
    · intro r hr
      obtain rfl : rules = r := by simpa [loadRulesGo] using hr
      exact hinv
    · intro e he
      simp [loadRulesGo] at he
  | cons d ds ih =>
    intro rules fs hinv
    obtain ⟨l, c⟩ := d
    rcases loadRulesGo_cons_cases l c ds rules fs hinv with herr | ⟨rules', fs', hinv', heq, -⟩
    · rw [herr]
      refine ⟨?_, ?_⟩
      · intro r hr
        simp at hr
      · intro e he
        exact (Except.error.inj he).symm
    · rw [heq]
      exact ih rules' fs' hinv'

/-- The label `replace_string` does not carry the `test_` prefix. -/
theorem isTestLabel_replace : isTestLabel ("replace_string") = false := by decide

/-- The label `find_string` does not carry the `test_` prefix. -/
theorem isTestLabel_find : isTestLabel ("find_string") = false := by decide

/-- When no `find_string` directive occurs first, a `replace_string`
directive reached with an empty pending slot (`None` or the empty
string) makes the fold fail with `InvalidSpec`. -/
theorem loadRulesGo_replace_falsy :
    ∀ ds rules fs, RulesInv rules → (∀ d ∈ ds, d.1 ≠ "find_string") →
      (fs = none ∨ fs = some "") →
      ∀ c ds₂,
        loadRulesGo (ds ++ (("replace_string"), c) :: ds₂) rules fs
          = Except.error SpecError.invalidSpec := by
  intro ds
  induction ds with
  | nil =>
    intro rules fs hinv hnf hfs c ds₂
    rw [List.nil_append]
    rcases hfs with rfl | rfl
    · simp [loadRulesGo, isTestLabel_replace]
    · simp [loadRulesGo, isTestLabel_replace]
  | cons d ds ih =>
    intro rules fs hinv hnf hfs c ds₂
    obtain ⟨l, c₀⟩ := d
    have hl : l ≠ "find_string" := hnf (l, c₀) (List.mem_cons_self _ _)
    rw [List.cons_append]
    rcases loadRulesGo_cons_cases l c₀ (ds ++ (("replace_string"), c) :: ds₂)
        rules fs hinv with herr | ⟨rules', fs', hinv', heq, hfs'⟩
    · exact herr
    · rw [heq]
      have hsame : fs' = fs := hfs' hl
      rw [hsame]
      exact ih rules' fs hinv' (fun d hd => hnf d (List.mem_cons_of_mem _ hd)) hfs c ds₂

/-- A `find_string` directive whose content strips to the empty string
leaves the pending slot falsy, so a later `replace_string` with no
intervening `find_string` makes the fold fail with `InvalidSpec`. -/
theorem loadRulesGo_empty_find :
    ∀ ds rules fs, RulesInv rules →
      ∀ ds₂ c ds₃, (∀ d ∈ ds₂, d.1 ≠ "find_string") →
        loadRulesGo
            (ds ++ (("find_string"), ("")) :: (ds₂ ++ (("replace_string"), c) :: ds₃))
            rules fs
          = Except.error SpecError.invalidSpec := by
  intro ds
  induction ds with
  | nil =>
    intro rules fs hinv ds₂ c ds₃ hnf
    rw [List.nil_append]
    have hstep :
        loadRulesGo
            ((("find_string"), ("")) :: (ds₂ ++ (("replace_string"), c) :: ds₃))
            rules fs
          = loadRulesGo (ds₂ ++ (("replace_string"), c) :: ds₃) rules (some ("")) := by
      simp [loadRulesGo, isTestLabel_find]
    rw [hstep]
    exact loadRulesGo_replace_falsy ds₂ rules (some ("")) hinv hnf (Or.inr rfl) c ds₃
  | cons d ds ih =>
    intro rules fs hinv ds₂ c ds₃ hnf
    obtain ⟨l, c₀⟩ := d
    rw [List.cons_append]
    rcases loadRulesGo_cons_cases l c₀
        (ds ++ (("find_string"), ("")) :: (ds₂ ++ (("replace_string"), c) :: ds₃))
        rules fs hinv with herr | ⟨rules', fs', hinv', heq, -⟩
    · exact herr
    · rw [heq]
      exact ih rules' fs' hinv' ds₂ c ds₃ hnf

/-- A `test_`-prefixed directive that is not `test_url`, with no `test_url`
directive anywhere before it, makes the test-case fold fail with
`InvalidSpec`. -/
theorem loadTestcasesGo_before_start :
    ∀ ds, (∀ d ∈ ds, d.1 ≠ "test_url") →
      ∀ l c ds₂, isTestLabel l = true → l ≠ "test_url" →
        loadTestcasesGo (ds ++ (l, c) :: ds₂) []
          = Except.error SpecError.invalidSpec := by
  intro ds
  induction ds with
  | nil =>
    intro hnu l c ds₂ hl hne
    rw [List.nil_append]
    simp [loadTestcasesGo, hne, hl]
  | cons d ds ih =>
    intro hnu l c ds₂ hl hne
    obtain ⟨l₀, c₀⟩ := d
    have h0 : l₀ ≠ "test_url" := hnu (l₀, c₀) (List.mem_cons_self _ _)
    rw [List.cons_append]
    by_cases ht : isTestLabel l₀ = true
    · simp [loadTestcasesGo, h0, ht]
    · have hskip :
          loadTestcasesGo ((l₀, c₀) :: (ds ++ (l, c) :: ds₂)) []
            = loadTestcasesGo (ds ++ (l, c) :: ds₂) [] := by
        simp [loadTestcasesGo, h0, ht]
      rw [hskip]
      exact ih (fun d hd => hnu d (List.mem_cons_of_mem _ hd)) l c ds₂ hl hne

/-- The label `prune` does not carry the `test_` prefix. -/
theorem isTestLabel_prune : isTestLabel ("prune") = false := by decide

/-- The label `prune` differs from `find_string`. -/
theorem prune_ne_find : ("prune" : String) ≠ ("find_string") := by decide

/-- The label `prune` differs from `replace_string`. -/
theorem prune_ne_replace : ("prune" : String) ≠ ("replace_string") := by decide

/-- The label `prune` is a boolean property. -/
theorem prune_mem_props : ("prune" : String) ∈ boolean_props := by decide

/-- The label `test_url` carries the `test_` prefix. -/
theorem isTestLabel_test_url : isTestLabel ("test_url") = true := by decide

/-- C1: the claim fails as stated: a directive whose label is literally
`find_replace` appends its content as a plain string to the list under
the key `find_replace`, so on the input `"find_replace: x"` that list
holds a string, not a find/replace pair. -/
theorem C1_counterexample : ¬ claimC1 := by
  intro h
  have hload : load_rules (("find_replace: x").data)
      = Except.ok [(("find_replace"), RuleValue.list [Entry.str ("x")])] := by rfl
  have hshape := h (("find_replace: x").data)
      [(("find_replace"), RuleValue.list [Entry.str ("x")])] hload
      ("find_replace") (RuleValue.list [Entry.str ("x")]) (by simp)
  obtain ⟨ps, hps⟩ := hshape.1 rfl
  cases ps with
  | nil => simp at hps
  | cons p ps => simp at hps

/-- C1 (amended): in any mapping returned by `load_rules`, the value
under a boolean-property key is a boolean, the value under every other
key is a list, and the value under every key other than `find_replace`
and the boolean properties is a list of plain strings; the list under
`find_replace` may mix find/replace pairs with plain strings contributed
by directives whose label is literally `find_replace`. -/
theorem C1_value_shapes :
    ∀ f rules, load_rules f = Except.ok rules → ∀ k v, (k, v) ∈ rules →
      (k ∈ boolean_props → boolOnly v) ∧
      (k ∉ boolean_props → ∃ es, v = RuleValue.list es) ∧
      (k ∉ boolean_props → k ≠ "find_replace" → strsOnly v) := by
  intro f rules hload k v hmem
  exact (loadRulesGo_sound (parse_specfile f) [] none rulesInv_nil).1 rules hload k v hmem

/-- C1 witness: on the input `"strip: nav"` the key `strip` holds the
list of plain strings `["nav"]`. -/
theorem C1_witness : strsOnly (RuleValue.list [Entry.str ("nav")]) :=
  (C1_value_shapes (("strip: nav").data)
      [(("strip"), RuleValue.list [Entry.str ("nav")])] (by rfl)
      ("strip") (RuleValue.list [Entry.str ("nav")]) (by simp)).2.2
    (by decide) (by decide)

/-- C2: a `replace_string` directive with no `find_string` directive
anywhere before it in the stream makes `load_rules` fail with
`InvalidSpec`; no partial result is returned. -/
theorem C2_replace_without_find :
    ∀ f ds₁ c ds₂,
      parse_specfile f = ds₁ ++ (("replace_string"), c) :: ds₂ →
      (∀ d ∈ ds₁, d.1 ≠ "find_string") →
      load_rules f = Except.error SpecError.invalidSpec := by
  intro f ds₁ c ds₂ hparse hnf
  have h0 : load_rules f = loadRulesGo (parse_specfile f) [] none := rfl
  rw [h0, hparse]
  exact loadRulesGo_replace_falsy ds₁ [] none rulesInv_nil hnf (Or.inl rfl) c ds₂

/-- C2 witness: `load_rules` on the single line `"replace_string: bar"`
raises `InvalidSpec`. -/
theorem C2_witness :
    load_rules (("replace_string: bar").data) = Except.error SpecError.invalidSpec :=
  C2_replace_without_find (("replace_string: bar").data) [] ("bar") [] (by rfl) (by simp)

/-- C3: a `find_string` directive overwrites the pending-find slot; a
valid `replace_string` directive appends the (pending, content) pair to
the `find_replace` list and keeps the pending slot, so a second
`replace_string` reuses the same pending value, as on the two concrete
inputs. -/
theorem C3_find_replace_pairing :
    (∀ ds rules fs c,
        loadRulesGo ((("find_string"), c) :: ds) rules fs
          = loadRulesGo ds rules (some c))
    ∧ (∀ ds rules s c r, s ≠ "" →
        appendEntry rules ("find_replace") (Entry.pair s c) = Except.ok r →
        loadRulesGo ((("replace_string"), c) :: ds) rules (some s)
          = loadRulesGo ds r (some s))
    ∧ load_rules (("find_string: foo\nreplace_string: bar").data)
        = Except.ok [(("find_replace"), RuleValue.list [Entry.pair ("foo") ("bar")])]
    ∧ load_rules (("find_string: foo\nreplace_string: bar\nreplace_string: baz").data)
        = Except.ok [(("find_replace"),
            RuleValue.list [Entry.pair ("foo") ("bar"), Entry.pair ("foo") ("baz")])] := by
  refine ⟨?_, ?_, by rfl, by rfl⟩
  · intro ds rules fs c
    rfl
  · intro ds rules s c r hs happ
    simp [loadRulesGo, isTestLabel_replace, hs, happ]

/-- C3 witness: from pending `"foo"`, the directive
`replace_string: bar` appends the pair and keeps the pending slot. -/
theorem C3_witness :
    loadRulesGo [(("replace_string"), ("bar"))] [] (some ("foo"))
      = loadRulesGo [] [(("find_replace"), RuleValue.list [Entry.pair ("foo") ("bar")])]
          (some ("foo")) :=
  C3_find_replace_pairing.2.1 [] [] ("foo") ("bar")
    [(("find_replace"), RuleValue.list [Entry.pair ("foo") ("bar")])]
    (by decide) (by rfl)

/-- C4: a boolean-property directive stores true on content `"yes"`,
false on content `"no"` (overwriting, so the last occurrence wins), and
makes `load_rules` fail with `InvalidSpec` on any other content, as on
the two concrete inputs. -/
theorem C4_boolean_props :
    (∀ ds rules fs l c, l ∈ boolean_props →
        (c = "yes" →
          loadRulesGo ((l, c) :: ds) rules fs
            = loadRulesGo ds (setKey rules l (RuleValue.bool true)) fs)
        ∧ (c = "no" →
          loadRulesGo ((l, c) :: ds) rules fs
            = loadRulesGo ds (setKey rules l (RuleValue.bool false)) fs)
        ∧ (c ≠ "yes" → c ≠ "no" →
          loadRulesGo ((l, c) :: ds) rules fs = Except.error SpecError.invalidSpec))
    ∧ load_rules (("prune: yes\nprune: no").data)
        = Except.ok [(("prune"), RuleValue.bool false)]
    ∧ load_rules (("prune: maybe").data) = Except.error SpecError.invalidSpec := by
  refine ⟨?_, by rfl, by rfl⟩
  intro ds rules fs l c hl
  have hlp : l = "prune" := by simpa [boolean_props] using hl
  subst hlp
  refine ⟨?_, ?_, ?_⟩
  · intro hc; subst hc; rfl
  · intro hc; subst hc; rfl
  · intro hy hn
    simp [loadRulesGo, isTestLabel_prune, prune_ne_find, prune_ne_replace,
      prune_mem_props, hy, hn]

/-- C4 witness: content `"maybe"` under `prune` fails. -/
theorem C4_witness :
    loadRulesGo [(("prune"), ("maybe"))] [] none = Except.error SpecError.invalidSpec :=
  (C4_boolean_props.1 [] [] none ("prune") ("maybe") (by decide)).2.2
    (by decide) (by decide)

/-- C5: a `test_url` directive opens a new record appended at the end of
the output (file order), any later `test_`-prefixed directive appends
its content to that label's list inside the most recently opened record,
non-test directives are ignored, as on the two concrete inputs. -/
theorem C5_testcase_grouping :
    (∀ ds cs c,
        loadTestcasesGo ((("test_url"), c) :: ds) cs
          = loadTestcasesGo ds (cs ++ [[(("test_url"), TCVal.str c)]]))
    ∧ (∀ ds cs l c opencase c₂, isTestLabel l = true → l ≠ "test_url" →
        cs.getLast? = some opencase →
        tcAppend opencase l c = Except.ok c₂ →
        loadTestcasesGo ((l, c) :: ds) cs
          = loadTestcasesGo ds (cs.dropLast ++ [c₂]))
    ∧ (∀ ds cs l c, isTestLabel l = false →
        loadTestcasesGo ((l, c) :: ds) cs = loadTestcasesGo ds cs)
    ∧ load_testcases (("test_url: http://x\ntest_contains: Hello").data)
        = Except.ok [[(("test_url"), TCVal.str ("http://x")),
            (("test_contains"), TCVal.list [("Hello")])]]
    ∧ load_testcases (("test_url: http://x\ntest_url: http://y").data)
        = Except.ok [[(("test_url"), TCVal.str ("http://x"))],
            [(("test_url"), TCVal.str ("http://y"))]] := by
  refine ⟨?_, ?_, ?_, by rfl, by rfl⟩
  · intro ds cs c
    rfl
  · intro ds cs l c opencase c₂ hl hne hlast happ
    simp [loadTestcasesGo, hne, hl, hlast, happ]
  · intro ds cs l c hl
    have hne : l ≠ "test_url" := by
      intro h
      subst h
      rw [isTestLabel_test_url] at hl
      cases hl
    simp [loadTestcasesGo, hne, hl]

/-- C5 witness: `test_contains: Hello` appends to the open record. -/
theorem C5_witness :
    loadTestcasesGo [(("test_contains"), ("Hello"))] [[(("test_url"), TCVal.str ("u"))]]
      = loadTestcasesGo [] [[(("test_url"), TCVal.str ("u")),
          (("test_contains"), TCVal.list [("Hello")])]] :=
  C5_testcase_grouping.2.1 [] [[(("test_url"), TCVal.str ("u"))]]
    ("test_contains") ("Hello") [(("test_url"), TCVal.str ("u"))]
    [(("test_url"), TCVal.str ("u")), (("test_contains"), TCVal.list [("Hello")])]
    (by decide) (by decide) (by rfl) (by rfl)

/-- C6: a non-section-start `test_`-prefixed directive occurring before
any `test_url` directive makes `load_testcases` fail with
`InvalidSpec`. -/
theorem C6_test_before_section :
    ∀ f ds₁ l c ds₂,
      parse_specfile f = ds₁ ++ (l, c) :: ds₂ →
      (∀ d ∈ ds₁, d.1 ≠ "test_url") →
      isTestLabel l = true → l ≠ "test_url" →
      load_testcases f = Except.error SpecError.invalidSpec := by
  intro f ds₁ l c ds₂ hparse hnu hl hne
  have h0 : load_testcases f = loadTestcasesGo (parse_specfile f) [] := rfl
  rw [h0, hparse]
  exact loadTestcasesGo_before_start ds₁ hnu l c ds₂ hl hne

/-- C6 witness: `load_testcases` on the single line
`"test_contains: Hello"` raises `InvalidSpec`. -/
theorem C6_witness :
    load_testcases (("test_contains: Hello").data) = Except.error SpecError.invalidSpec :=
  C6_test_before_section (("test_contains: Hello").data) [] ("test_contains") ("Hello") []
    (by rfl) (by simp) (by decide) (by decide)

/-- C7: the claim fails as stated: on the line `"  : bar"` the
tokenizer yields the directive `("", "bar")`, whose label is the empty
string, because the raw label segment is nonempty whitespace that
stripping empties. -/
theorem C7_counterexample : ¬ claimC7 := by
  intro h
  have hmatch := h (("  : bar").data) ("") ("bar") (by rfl)
  exact hmatch.1 rfl

/-- C7 (amended): the tokenizer yields a directive from a line only if
the raw label segment before the first `:` and the raw content segment
after it (up to the first `#`, which starts the comment if present) each
contain at least one character; the yielded label and content are those
segments whitespace-trimmed and may be empty strings, as on the line
`"  : bar"`. -/
theorem C7_raw_segments :
    (∀ t l c, matchDirective t = some (l, c) →
      ∃ rawL rawC rest, t = rawL ++ ':' :: (rawC ++ rest)
        ∧ rawL ≠ [] ∧ rawC ≠ []
        ∧ (∀ ch ∈ rawL, ch ≠ '#' ∧ ch ≠ ':')
        ∧ (∀ ch ∈ rawC, ch ≠ '#')
        ∧ (rest = [] ∨ ∃ r, rest = '#' :: r)
        ∧ l = strip rawL ∧ c = strip rawC)
    ∧ matchDirective (("  : bar").data) = some ((""), ("bar")) :=
  ⟨matchDirective_decomp, by rfl⟩

/-- C7 witness: the line `"a: b"` decomposes into its raw segments. -/
theorem C7_witness :
    ∃ rawL rawC rest, (("a: b").data) = rawL ++ ':' :: (rawC ++ rest)
      ∧ rawL ≠ [] ∧ rawC ≠ []
      ∧ (∀ ch ∈ rawL, ch ≠ '#' ∧ ch ≠ ':')
      ∧ (∀ ch ∈ rawC, ch ≠ '#')
      ∧ (rest = [] ∨ ∃ r, rest = '#' :: r)
      ∧ ("a") = strip rawL ∧ ("b") = strip rawC :=
  C7_raw_segments.1 (("a: b").data) ("a") ("b") (by rfl)

/-- C8: on every matching line the label is the trimmed text before the
first `:` and the content is the trimmed text after the first `:` up to
the first `#`, so content may itself contain `:` characters, as on the
two concrete lines. -/
theorem C8_first_colon_split :
    (∀ t l c, matchDirective t = some (l, c) →
        l = strip (t.takeWhile (fun ch => !(ch == ':')))
        ∧ c = strip (((t.dropWhile (fun ch => !(ch == ':'))).drop 1).takeWhile
            (fun ch => !(ch == '#'))))
    ∧ matchDirective (("  strip_id_or_class  :  decoration  # remove decorations").data)
        = some (("strip_id_or_class"), ("decoration"))
    ∧ matchDirective (("a: b:c").data) = some (("a"), ("b:c")) := by
  refine ⟨?_, by rfl, by rfl⟩
  intro t l c h
  obtain ⟨rawL, rawC, rest, ht, hLne, hCne, hLch, hCch, hrest, hl, hc⟩ :=
    matchDirective_decomp t l c h
  subst ht
  have hq1 : ∀ x ∈ rawL, (fun ch => !(ch == ':')) x = true := by
    intro x hx
    simpa using (hLch x hx).2
  have hcolon : (fun ch : Char => !(ch == ':')) ':' = false := by simp
  have hq2 : ∀ x ∈ rawC, (fun ch => !(ch == '#')) x = true := by
    intro x hx
    simpa using hCch x hx
  constructor
  · rw [takeWhile_append_cons _ rawL ':' (rawC ++ rest) hq1 hcolon]
    exact hl
  · rw [dropWhile_append_cons _ rawL ':' (rawC ++ rest) hq1 hcolon]
    have hdrop : ((':' :: (rawC ++ rest)).drop 1) = rawC ++ rest := rfl
    rw [hdrop]
    rcases hrest with rfl | ⟨r, rfl⟩
    · rw [List.append_nil, takeWhile_all _ rawC hq2]
      exact hc
    · rw [takeWhile_append_cons _ rawC '#' r hq2 (by simp)]
      exact hc

/-- C8 witness: the line `"k: v"` splits at its first `:`. -/
theorem C8_witness :
    ("k") = strip ((("k: v").data).takeWhile (fun ch => !(ch == ':')))
    ∧ ("v") = strip ((((("k: v").data).dropWhile (fun ch => !(ch == ':'))).drop 1).takeWhile
        (fun ch => !(ch == '#'))) :=
  C8_first_colon_split.1 (("k: v").data) ("k") ("v") (by rfl)

/-- C9: a line with no `:` before its first `#` (in particular an empty
line, a line with no `:` at all, or a line whose `#` precedes every `:`)
yields no directive and raises no error. -/
theorem C9_no_colon_skipped :
    ∀ t, (t.takeWhile (fun ch => !(ch == '#'))).all (fun ch => !(ch == ':')) = true →
      matchDirective t = none := by
  intro t hno
  cases hm : matchDirective t with
  | none => rfl
  | some d =>
    obtain ⟨l, c⟩ := d
    obtain ⟨rawL, rawC, rest, ht, hLne, hCne, hLch, hCch, hrest, hl, hc⟩ :=
      matchDirective_decomp t l c hm
    subst ht
    have hq : ∀ x ∈ rawL, (fun ch => !(ch == '#')) x = true := by
      intro x hx
      simpa using (hLch x hx).1
    rw [takeWhile_append_cons_pos _ rawL ':' (rawC ++ rest) hq (by simp)] at hno
    have hmem : (':' : Char) ∈ rawL ++ ':' :: ((rawC ++ rest).takeWhile
        (fun ch => !(ch == '#'))) :=
      List.mem_append_right _ (List.mem_cons_self _ _)
    have hcontra := List.all_eq_true.mp hno ':' hmem
    simp at hcontra

/-- C9 witness: the line `"# foo: bar"`, whose `#` precedes its `:`,
yields no directive. -/
theorem C9_witness :
    (((("# foo: bar").data).takeWhile (fun ch => !(ch == '#'))).all
        (fun ch => !(ch == ':')) = true)
    ∧ matchDirective (("# foo: bar").data) = none :=
  ⟨by rfl, C9_no_colon_skipped (("# foo: bar").data) (by rfl)⟩

/-- C10: a pending find value equal to the empty string is treated like
no find value: a `replace_string` whose most recent preceding
`find_string` had empty content makes `load_rules` raise `InvalidSpec`,
as on the input `"find_string:   # note\nreplace_string: bar"`. -/
theorem C10_empty_find :
    (∀ f ds₁ ds₂ c ds₃,
        parse_specfile f
          = ds₁ ++ (("find_string"), ("")) :: (ds₂ ++ (("replace_string"), c) :: ds₃) →
        (∀ d ∈ ds₂, d.1 ≠ "find_string") →
        load_rules f = Except.error SpecError.invalidSpec)
    ∧ load_rules (("find_string:   # note\nreplace_string: bar").data)
        = Except.error SpecError.invalidSpec := by
  constructor
  · intro f ds₁ ds₂ c ds₃ hparse hnf
    have h0 : load_rules f = loadRulesGo (parse_specfile f) [] none := rfl
    rw [h0, hparse]
    exact loadRulesGo_empty_find ds₁ [] none rulesInv_nil ds₂ c ds₃ hnf
  · rfl

/-- C10 witness: an empty-content `find_string` line followed by a
`replace_string` line fails. -/
theorem C10_witness :
    load_rules (("a: b\nfind_string: \nreplace_string: x").data)
      = Except.error SpecError.invalidSpec :=
  C10_empty_find.1 (("a: b\nfind_string: \nreplace_string: x").data)
    [(("a"), ("b"))] [] ("x") [] (by rfl) (by simp)

end Saulify
